import Mathlib

/-!
Verification of the fixed-capacity linear-scan map from `src/map.rs`.

Shallow embedding: each storage slot is a `MaybeUninit<Option<(K, V)>>`,
modelled by `Slot` below (`uninit` = never written; `init o` = written with
`o`, where `o = some (k, v)` is an occupied pair and `o = none` a tombstone).
Reading an uninitialized slot (`assume_init_ref` in the source) is undefined
behavior; every operation that performs reads is therefore modelled in an
`Option` (or `Except`) monad whose failure value marks UB, an out-of-bounds
index, or (for `insert`) the `debug_assert!` firing.  The Rust loops
`for i in 0..self.next` become structural recursion over `List.range m.next`.
-/

set_option linter.unusedSectionVars false

namespace Micromap

inductive Slot (K V : Type) where
  | uninit : Slot K V
  | init : Option (K × V) → Slot K V
deriving DecidableEq

structure Map (K V : Type) where
  pairs : List (Slot K V)
  next : Nat
deriving DecidableEq

/-- Insert failure modes in the model: the `debug_assert!(i < N)` firing in a
checked build, or undefined behavior (reading an uninitialized slot, or an
out-of-bounds array index). -/
inductive Err where
  | assertFail : Err
  | ub : Err
deriving DecidableEq

variable {K V : Type} [DecidableEq K]

/-- Modelled from the spec: the container struct and its constructor
(`Map::new`) live outside `src/`; per §3 and §9 of the spec the reference
implementation starts with all `N` slots as raw, not-yet-initialized storage
and the cursor at `0`. -/
def Map.new (K V : Type) (N : Nat) : Map K V :=
  ⟨List.replicate N Slot.uninit, 0⟩

/-- Model of `self.pairs[i].assume_init_ref()`: `none` marks UB on an
uninitialized slot. -/
def assumeInitRef : Slot K V → Option (Option (K × V))
  | Slot.uninit => none
  | Slot.init o => some o

/-- Read `self.pairs[i]` and `assume_init_ref` it; `none` marks an
out-of-bounds index or an uninitialized slot. -/
def readPair (m : Map K V) (i : Nat) : Option (Option (K × V)) :=
  match m.pairs[i]? with
  | none => none
  | some s => assumeInitRef s

/-- Model of `self.pairs[i].write(o)`. -/
def writePair (m : Map K V) (i : Nat) (o : Option (K × V)) : Map K V :=
  ⟨m.pairs.set i (Slot.init o), m.next⟩

/-- Source `capacity()`: the const generic `N`, i.e. the length of the slot array. -/
def capacity (m : Map K V) : Nat :=
  m.pairs.length

/-- Loop body of `len()` over the remaining indices. -/
def lenAux (m : Map K V) : List Nat → Option Nat
  | [] => some 0
  | i :: rest =>
    match readPair m i with
    | none => none
    | some o => (lenAux m rest).map (fun busy => if o.isSome then busy + 1 else busy)

/-- Source `len()`: count the occupied slots among `[0, next)`. -/
def len (m : Map K V) : Option Nat :=
  lenAux m (List.range m.next)

/-- Source `is_empty()`: `self.len() == 0`. -/
def is_empty (m : Map K V) : Option Bool :=
  (len m).map (fun n => n == 0)

/-- Loop body of `contains_key` over the remaining indices. -/
def containsAux (m : Map K V) (k : K) : List Nat → Option Bool
  | [] => some false
  | i :: rest =>
    match readPair m i with
    | none => none
    | some (some (bk, _)) => if bk = k then some true else containsAux m k rest
    | some none => containsAux m k rest

/-- Source `contains_key(k)`. -/
def contains_key (m : Map K V) (k : K) : Option Bool :=
  containsAux m k (List.range m.next)

/-- Loop body of `remove` over the remaining indices. -/
def removeAux (m : Map K V) (k : K) : List Nat → Option (Map K V)
  | [] => some m
  | i :: rest =>
    match readPair m i with
    | none => none
    | some (some (bk, _)) =>
      if bk = k then some (writePair m i none) else removeAux m k rest
    | some none => removeAux m k rest

/-- Source `remove(k)`: tombstone the first occupied slot in `[0, next)`
whose key equals `k`. -/
def remove (m : Map K V) (k : K) : Option (Map K V) :=
  removeAux m k (List.range m.next)

/-- The scan loop of `insert`: `target` is the mutable `target` variable, the
list holds the indices still to visit; the empty list is the `i == self.next`
case, where `debug_assert!(i < N)` runs and the cursor advances. On success
it returns the final `(target, next)`. -/
def insertAux (m : Map K V) (k : K) (target : Nat) : List Nat → Except Err (Nat × Nat)
  | [] =>
    if m.next < m.pairs.length then Except.ok (target, m.next + 1)
    else Except.error Err.assertFail
  | i :: rest =>
    match readPair m i with
    | none => Except.error Err.ub
    | some (some (bk, _)) =>
      if bk = k then Except.ok (i, m.next) else insertAux m k target rest
    | some none => insertAux m k i rest

/-- Source `insert(k, v)`: run the scan from `target = self.next`, `i = 0`, then
`self.pairs[target].write(Some((k, v)))` (an out-of-bounds `target` would
panic, hence the final bound check). -/
def insert (m : Map K V) (k : K) (v : V) : Except Err (Map K V) :=
  match insertAux m k m.next (List.range m.next) with
  | Except.error e => Except.error e
  | Except.ok (target, nx) =>
    if target < m.pairs.length then
      Except.ok ⟨m.pairs.set target (Slot.init (some (k, v))), nx⟩
    else Except.error Err.ub

/-- Loop body of `get` over the remaining indices. -/
def getAux (m : Map K V) (k : K) : List Nat → Option (Option V)
  | [] => some none
  | i :: rest =>
    match readPair m i with
    | none => none
    | some (some (bk, bv)) => if bk = k then some (some bv) else getAux m k rest
    | some none => getAux m k rest

/-- Source `get(k)`: value of the first occupied slot in `[0, next)` whose
key equals `k`. -/
def get (m : Map K V) (k : K) : Option (Option V) :=
  getAux m k (List.range m.next)

/-- Loop body of `get_mut`: on a key match the source re-reads the slot with
`assume_init_mut` and `unwrap`s the option before handing out the mutable
reference; the model returns the slot index together with the value. -/
def getMutAux (m : Map K V) (k : K) : List Nat → Option (Option (Nat × V))
  | [] => some none
  | i :: rest =>
    match readPair m i with
    | none => none
    | some (some (bk, _)) =>
      if bk = k then
        match readPair m i with
        | some (some (_, bv)) => some (some (i, bv))
        | _ => none
      else getMutAux m k rest
    | some none => getMutAux m k rest

/-- Source `get_mut(k)`. -/
def get_mut (m : Map K V) (k : K) : Option (Option (Nat × V)) :=
  getMutAux m k (List.range m.next)

/-- Source `clear()`: `self.next = 0`, slot contents untouched. -/
def clear (m : Map K V) : Map K V :=
  ⟨m.pairs, 0⟩

/-- Loop body of `retain`: a slot whose pair fails the predicate is
tombstoned in place before the scan continues. -/
def retainAux (p : K → V → Bool) : Map K V → List Nat → Option (Map K V)
  | m, [] => some m
  | m, i :: rest =>
    match readPair m i with
    | none => none
    | some (some (bk, bv)) =>
      if p bk bv then retainAux p m rest else retainAux p (writePair m i none) rest
    | some none => retainAux p m rest

/-- Source `retain(f)`. -/
def retain (m : Map K V) (p : K → V → Bool) : Option (Map K V) :=
  retainAux p m (List.range m.next)

/-- Fold of `insert` over a list of pairs (what the source's `from_iter`
does), propagating failure. -/
def applyInserts (m : Map K V) : List (K × V) → Except Err (Map K V)
  | [] => Except.ok m
  | (k, v) :: rest =>
    match insert m k v with
    | Except.error e => Except.error e
    | Except.ok m' => applyInserts m' rest

/-! ### Spec-side helper notions -/

/-- The pair stored at an occupied slot, `none` for tombstones, uninitialized
slots and out-of-range indices. -/
def occAt (m : Map K V) (i : Nat) : Option (K × V) :=
  match m.pairs[i]? with
  | some (Slot.init (some p)) => some p
  | _ => none

/-- Slot `i` is a tombstone. -/
def tombAt (m : Map K V) (i : Nat) : Prop :=
  m.pairs[i]? = some (Slot.init none)

/-- Every slot of the scanned prefix `[0, next)` is initialized (and in
bounds), so no scan over it hits UB. -/
def Inited (m : Map K V) : Prop :=
  ∀ i, i < m.next → m.pairs[i]? ≠ none ∧ m.pairs[i]? ≠ some Slot.uninit

/-- Key at slot `i`, if occupied. -/
def keyAt (m : Map K V) (i : Nat) : Option K :=
  (occAt m i).map Prod.fst

/-- Key uniqueness among the occupied slots of `[0, next)`. -/
def Uniq (m : Map K V) : Prop :=
  ∀ i, i < m.next → ∀ j, j < m.next → i ≠ j →
    keyAt m i = none ∨ keyAt m i ≠ keyAt m j

instance [DecidableEq V] (m : Map K V) : Decidable (Inited m) := by
  unfold Inited
  infer_instance

instance [DecidableEq V] (m : Map K V) : Decidable (Uniq m) := by
  unfold Uniq
  infer_instance

/-- Index of the first occupied slot with key `k` among the given indices
(tombstones and uninitialized slots are skipped). -/
def firstMatchAux (m : Map K V) (k : K) : List Nat → Option Nat
  | [] => none
  | i :: rest =>
    match occAt m i with
    | some p => if p.1 = k then some i else firstMatchAux m k rest
    | none => firstMatchAux m k rest

/-- The value of `insert`'s `target` variable after scanning the given
indices: the last tombstone seen, else the starting value. -/
def lastTombAux (m : Map K V) (t : Nat) : List Nat → Nat
  | [] => t
  | i :: rest =>
    match readPair m i with
    | some none => lastTombAux m i rest
    | _ => lastTombAux m t rest

/-- What `retain` does to one slot of the scanned prefix. -/
def retainSlot (p : K → V → Bool) : Option (Slot K V) → Option (Slot K V)
  | some (Slot.init (some (a, b))) =>
    some (Slot.init (if p a b then some (a, b) else none))
  | x => x

/-! ### Basic bridging lemmas -/

theorem occAt_iff_readPair {m : Map K V} {i : Nat} {p : K × V} :
    occAt m i = some p ↔ readPair m i = some (some p) := by
  unfold occAt readPair
  match m.pairs[i]? with
  | none => simp [assumeInitRef]
  | some Slot.uninit => simp [assumeInitRef]
  | some (Slot.init none) => simp [assumeInitRef]
  | some (Slot.init (some q)) => simp [assumeInitRef]

theorem tombAt_iff_readPair {m : Map K V} {i : Nat} :
    tombAt m i ↔ readPair m i = some none := by
  unfold tombAt readPair
  match m.pairs[i]? with
  | none => simp [assumeInitRef]
  | some Slot.uninit => simp [assumeInitRef]
  | some (Slot.init none) => simp [assumeInitRef]
  | some (Slot.init (some q)) => simp [assumeInitRef]

theorem readPair_lt_length {m : Map K V} {i : Nat} {o : Option (K × V)}
    (h : readPair m i = some o) : i < m.pairs.length := by
  by_contra hc
  unfold readPair at h
  rw [List.getElem?_eq_none (Nat.le_of_not_lt hc)] at h
  exact Option.noConfusion h

theorem readPair_writePair_ne {m : Map K V} {i j : Nat} {o : Option (K × V)}
    (h : i ≠ j) : readPair (writePair m i o) j = readPair m j := by
  unfold readPair writePair
  rw [List.getElem?_set_ne h]

theorem readPair_writePair_self {m : Map K V} {i : Nat} {o : Option (K × V)}
    (h : i < m.pairs.length) : readPair (writePair m i o) i = some o := by
  unfold readPair writePair
  rw [List.getElem?_set_eq_of_lt _ h]
  rfl

theorem writePair_next {m : Map K V} {i : Nat} {o : Option (K × V)} :
    (writePair m i o).next = m.next := rfl

/-! ### Scan-loop lemmas over an arbitrary index list -/

/-- An index is "clean for `k`" when reading it is defined and it does not
hold an occupied pair with key `k`. -/
def CleanFor (m : Map K V) (k : K) (i : Nat) : Prop :=
  readPair m i ≠ none ∧ ∀ a b, readPair m i = some (some (a, b)) → a ≠ k

theorem getAux_congr {m m' : Map K V} {k : K} {lis : List Nat}
    (h : ∀ i ∈ lis, readPair m' i = readPair m i) :
    getAux m' k lis = getAux m k lis := by
  induction lis with
  | nil => rfl
  | cons i rest ih =>
    have hi := h i (List.mem_cons_self i rest)
    have hr : ∀ j ∈ rest, readPair m' j = readPair m j :=
      fun j hj => h j (List.mem_cons_of_mem i hj)
    unfold getAux
    rw [hi]
    match hm : readPair m i with
    | none => rfl
    | some none => exact ih hr
    | some (some (bk, bv)) =>
      by_cases hbk : bk = k
      · simp [hbk]
      · simp [hbk, ih hr]

theorem getAux_clean {m : Map K V} {k : K} {lis : List Nat}
    (h : ∀ i ∈ lis, CleanFor m k i) :
    getAux m k lis = some none := by
  induction lis with
  | nil => rfl
  | cons i rest ih =>
    have hi := h i (List.mem_cons_self i rest)
    have hr : ∀ j ∈ rest, CleanFor m k j :=
      fun j hj => h j (List.mem_cons_of_mem i hj)
    unfold getAux
    match hm : readPair m i with
    | none => exact absurd hm hi.1
    | some none => exact ih hr
    | some (some (bk, bv)) =>
      have : bk ≠ k := hi.2 bk bv hm
      simp [this, ih hr]

theorem getAux_found {m : Map K V} {k : K} {w : V} (l1 : List Nat) (j : Nat) (l2 : List Nat)
    (h1 : ∀ i ∈ l1, CleanFor m k i)
    (hj : readPair m j = some (some (k, w))) :
    getAux m k (l1 ++ j :: l2) = some (some w) := by
  induction l1 with
  | nil =>
    unfold getAux
    rw [List.nil_append]
    simp [hj]
  | cons i rest ih =>
    have hi := h1 i (List.mem_cons_self i rest)
    have hr : ∀ x ∈ rest, CleanFor m k x :=
      fun x hx => h1 x (List.mem_cons_of_mem i hx)
    rw [List.cons_append]
    unfold getAux
    match hm : readPair m i with
    | none => exact absurd hm hi.1
    | some none => exact ih hr
    | some (some (bk, bv)) =>
      have : bk ≠ k := hi.2 bk bv hm
      simp [this, ih hr]

theorem getAux_first {m : Map K V} {k : K} {lis : List Nat}
    (hread : ∀ i ∈ lis, readPair m i ≠ none)
    (hex : ∃ j ∈ lis, ∃ v, occAt m j = some (k, v)) :
    ∃ j0 v0, j0 ∈ lis ∧ occAt m j0 = some (k, v0) ∧ getAux m k lis = some (some v0) := by
  induction lis with
  | nil => rcases hex with ⟨j, hj, _⟩; exact absurd hj (List.not_mem_nil j)
  | cons i rest ih =>
    have hi := hread i (List.mem_cons_self i rest)
    have hr : ∀ x ∈ rest, readPair m x ≠ none :=
      fun x hx => hread x (List.mem_cons_of_mem i hx)
    match hm : readPair m i with
    | none => exact absurd hm hi
    | some none =>
      have hex' : ∃ j ∈ rest, ∃ v, occAt m j = some (k, v) := by
        rcases hex with ⟨j, hj, v, hv⟩
        rcases List.mem_cons.1 hj with rfl | hj'
        · rw [occAt_iff_readPair] at hv
          rw [hv] at hm
          exact Option.noConfusion (Option.some.inj hm)
        · exact ⟨j, hj', v, hv⟩
      rcases ih hr hex' with ⟨j0, v0, hj0, hocc, hget⟩
      refine ⟨j0, v0, List.mem_cons_of_mem i hj0, hocc, ?_⟩
      unfold getAux
      rw [hm]
      exact hget
    | some (some (bk, bv)) =>
      by_cases hbk : bk = k
      · subst hbk
        refine ⟨i, bv, List.mem_cons_self i rest, occAt_iff_readPair.2 hm, ?_⟩
        unfold getAux
        rw [hm]
        simp
      · have hex' : ∃ j ∈ rest, ∃ v, occAt m j = some (k, v) := by
          rcases hex with ⟨j, hj, v, hv⟩
          rcases List.mem_cons.1 hj with rfl | hj'
          · rw [occAt_iff_readPair] at hv
            rw [hv] at hm
            have := Option.some.inj (Option.some.inj hm)
            exact absurd (congrArg Prod.fst this).symm hbk
          · exact ⟨j, hj', v, hv⟩
        rcases ih hr hex' with ⟨j0, v0, hj0, hocc, hget⟩
        refine ⟨j0, v0, List.mem_cons_of_mem i hj0, hocc, ?_⟩
        unfold getAux
        rw [hm]
        simp [hbk]
        exact hget

theorem containsAux_clean {m : Map K V} {k : K} {lis : List Nat}
    (h : ∀ i ∈ lis, CleanFor m k i) :
    containsAux m k lis = some false := by
  induction lis with
  | nil => rfl
  | cons i rest ih =>
    have hi := h i (List.mem_cons_self i rest)
    have hr : ∀ j ∈ rest, CleanFor m k j :=
      fun j hj => h j (List.mem_cons_of_mem i hj)
    unfold containsAux
    match hm : readPair m i with
    | none => exact absurd hm hi.1
    | some none => exact ih hr
    | some (some (bk, bv)) =>
      have : bk ≠ k := hi.2 bk bv hm
      simp [this, ih hr]

theorem lenAux_congr {m m' : Map K V} {lis : List Nat}
    (h : ∀ i ∈ lis, (readPair m' i).map Option.isSome = (readPair m i).map Option.isSome) :
    lenAux m' lis = lenAux m lis := by
  induction lis with
  | nil => rfl
  | cons i rest ih =>
    have hi := h i (List.mem_cons_self i rest)
    have hr : ∀ j ∈ rest,
        (readPair m' j).map Option.isSome = (readPair m j).map Option.isSome :=
      fun j hj => h j (List.mem_cons_of_mem i hj)
    have ih' := ih hr
    cases hm : readPair m i with
    | none =>
      cases hm' : readPair m' i with
      | none => simp [lenAux, hm, hm']
      | some o' => rw [hm, hm'] at hi; exact Option.noConfusion hi
    | some o =>
      cases hm' : readPair m' i with
      | none => rw [hm, hm'] at hi; exact Option.noConfusion hi
      | some o' =>
        rw [hm, hm'] at hi
        have hs : o'.isSome = o.isSome := Option.some.inj hi
        simp [lenAux, hm, hm', hs, ih']

theorem lenAux_all_occupied {m : Map K V} {lis : List Nat}
    (h : ∀ i ∈ lis, ∃ p, readPair m i = some (some p)) :
    lenAux m lis = some lis.length := by
  induction lis with
  | nil => rfl
  | cons i rest ih =>
    rcases h i (List.mem_cons_self i rest) with ⟨p, hp⟩
    have hr : ∀ j ∈ rest, ∃ q, readPair m j = some (some q) :=
      fun j hj => h j (List.mem_cons_of_mem i hj)
    unfold lenAux
    rw [hp, ih hr]
    rfl

theorem lastTombAux_cases (m : Map K V) :
    ∀ (lis : List Nat) (t : Nat),
      lastTombAux m t lis = t ∨
      (lastTombAux m t lis ∈ lis ∧ readPair m (lastTombAux m t lis) = some none) := by
  intro lis
  induction lis with
  | nil => intro t; exact Or.inl rfl
  | cons i rest ih =>
    intro t
    unfold lastTombAux
    match hm : readPair m i with
    | none =>
      rcases ih t with h | h
      · exact Or.inl h
      · exact Or.inr ⟨List.mem_cons_of_mem i h.1, h.2⟩
    | some none =>
      rcases ih i with h | h
      · exact Or.inr ⟨by rw [h]; exact List.mem_cons_self i rest, by rw [h]; exact hm⟩
      · exact Or.inr ⟨List.mem_cons_of_mem i h.1, h.2⟩
    | some (some p) =>
      rcases ih t with h | h
      · exact Or.inl h
      · exact Or.inr ⟨List.mem_cons_of_mem i h.1, h.2⟩

theorem lastTombAux_no_tomb {m : Map K V} :
    ∀ {lis : List Nat} {t : Nat},
      (∀ i ∈ lis, readPair m i ≠ some none) → lastTombAux m t lis = t := by
  intro lis
  induction lis with
  | nil => intro t _; rfl
  | cons i rest ih =>
    intro t h
    have hi := h i (List.mem_cons_self i rest)
    have hr : ∀ j ∈ rest, readPair m j ≠ some none :=
      fun j hj => h j (List.mem_cons_of_mem i hj)
    unfold lastTombAux
    match hm : readPair m i with
    | none => exact ih hr
    | some none => exact absurd hm hi
    | some (some p) => exact ih hr

theorem lastTombAux_finds_tomb {m : Map K V} :
    ∀ {lis : List Nat} {t : Nat},
      (∃ i ∈ lis, readPair m i = some none) →
      lastTombAux m t lis ∈ lis ∧ readPair m (lastTombAux m t lis) = some none := by
  intro lis
  induction lis with
  | nil =>
    intro t h
    rcases h with ⟨i, hi, _⟩
    exact absurd hi (List.not_mem_nil i)
  | cons i rest ih =>
    intro t h
    unfold lastTombAux
    match hm : readPair m i with
    | none =>
      have h' : ∃ j ∈ rest, readPair m j = some none := by
        rcases h with ⟨j, hj, hjt⟩
        rcases List.mem_cons.1 hj with rfl | hj'
        · rw [hjt] at hm; exact Option.noConfusion hm
        · exact ⟨j, hj', hjt⟩
      rcases ih h' with ⟨h1, h2⟩
      exact ⟨List.mem_cons_of_mem i h1, h2⟩
    | some none =>
      rcases lastTombAux_cases m rest i with hc | hc
      · exact ⟨by rw [hc]; exact List.mem_cons_self i rest, by rw [hc]; exact hm⟩
      · exact ⟨List.mem_cons_of_mem i hc.1, hc.2⟩
    | some (some p) =>
      have h' : ∃ j ∈ rest, readPair m j = some none := by
        rcases h with ⟨j, hj, hjt⟩
        rcases List.mem_cons.1 hj with rfl | hj'
        · rw [hjt] at hm
          exact Option.noConfusion (Option.some.inj hm)
        · exact ⟨j, hj', hjt⟩
      rcases ih h' with ⟨h1, h2⟩
      exact ⟨List.mem_cons_of_mem i h1, h2⟩

theorem occAt_eq_join {m : Map K V} {i : Nat} : occAt m i = (readPair m i).join := by
  unfold occAt readPair
  match m.pairs[i]? with
  | none => rfl
  | some Slot.uninit => rfl
  | some (Slot.init none) => rfl
  | some (Slot.init (some q)) => rfl

theorem pairs_of_readPair {m : Map K V} {i : Nat} {o : Option (K × V)}
    (h : readPair m i = some o) : m.pairs[i]? = some (Slot.init o) := by
  unfold readPair at h
  match hp : m.pairs[i]? with
  | none => rw [hp] at h; exact Option.noConfusion h
  | some Slot.uninit => rw [hp] at h; exact Option.noConfusion h
  | some (Slot.init o') =>
    rw [hp] at h
    have ho : o' = o := Option.some.inj h
    rw [ho]

theorem readPair_of_set_ne {m m' : Map K V} {tg : Nat} {s : Slot K V}
    (hp : m'.pairs = m.pairs.set tg s) {i : Nat} (hi : i ≠ tg) :
    readPair m' i = readPair m i := by
  unfold readPair
  rw [hp, List.getElem?_set_ne (Ne.symm hi)]

theorem readPair_of_set_self {m m' : Map K V} {tg : Nat} {s : Slot K V}
    (hp : m'.pairs = m.pairs.set tg s) (hlt : tg < m.pairs.length) :
    readPair m' tg = assumeInitRef s := by
  unfold readPair
  rw [hp, List.getElem?_set_eq_of_lt _ hlt]

/-! ### Agreement of the three lookups (same scan, same reads) -/

theorem containsAux_eq_getAux (m : Map K V) (k : K) :
    ∀ lis : List Nat, containsAux m k lis = (getAux m k lis).map Option.isSome := by
  intro lis
  induction lis with
  | nil => rfl
  | cons i rest ih =>
    cases hm : readPair m i with
    | none => simp [containsAux, getAux, hm]
    | some o =>
      cases o with
      | none => simp [containsAux, getAux, hm, ih]
      | some q =>
        obtain ⟨bk, bv⟩ := q
        by_cases hbk : bk = k
        · simp [containsAux, getAux, hm, hbk]
        · simp [containsAux, getAux, hm, hbk, ih]

theorem getAux_eq_getMutAux (m : Map K V) (k : K) :
    ∀ lis : List Nat, getAux m k lis = (getMutAux m k lis).map (Option.map Prod.snd) := by
  intro lis
  induction lis with
  | nil => rfl
  | cons i rest ih =>
    cases hm : readPair m i with
    | none => simp [getAux, getMutAux, hm]
    | some o =>
      cases o with
      | none => simp [getAux, getMutAux, hm, ih]
      | some q =>
        obtain ⟨bk, bv⟩ := q
        by_cases hbk : bk = k
        · simp [getAux, getMutAux, hm, hbk]
        · simp [getAux, getMutAux, hm, hbk, ih]

theorem getMutAux_fst (m : Map K V) (k : K) :
    ∀ lis : List Nat,
      (getMutAux m k lis).map (Option.map Prod.fst) =
      (getMutAux m k lis).map (fun _ => firstMatchAux m k lis) := by
  intro lis
  induction lis with
  | nil => rfl
  | cons i rest ih =>
    cases hm : readPair m i with
    | none => simp [getMutAux, hm]
    | some o =>
      cases o with
      | none => simp [getMutAux, firstMatchAux, occAt_eq_join, hm, ih]
      | some q =>
        obtain ⟨bk, bv⟩ := q
        by_cases hbk : bk = k
        · simp [getMutAux, firstMatchAux, occAt_eq_join, hm, hbk]
        · simp [getMutAux, firstMatchAux, occAt_eq_join, hm, hbk, ih]

/-- C10: `contains_key` is true exactly when `get` finds a value, `get` finds
a value exactly when `get_mut` does (with the same value), and `get_mut`
hands out the first matching occupied slot — including agreement on the UB
cases, since all three run the identical scan. -/
theorem lookups_agree (m : Map K V) (k : K) :
    contains_key m k = (get m k).map Option.isSome ∧
    get m k = (get_mut m k).map (Option.map Prod.snd) ∧
    (get_mut m k).map (Option.map Prod.fst) =
      (get_mut m k).map (fun _ => firstMatchAux m k (List.range m.next)) :=
  ⟨containsAux_eq_getAux m k (List.range m.next),
   getAux_eq_getMutAux m k (List.range m.next),
   getMutAux_fst m k (List.range m.next)⟩

/-! ### Inversion lemmas for the mutating scans -/

theorem removeAux_ok_inv {m m' : Map K V} {k : K} :
    ∀ {lis : List Nat}, removeAux m k lis = some m' →
      (m' = m ∧ ∀ i ∈ lis, CleanFor m k i) ∨
      (∃ j ∈ lis, (∃ v, readPair m j = some (some (k, v))) ∧ m' = writePair m j none) := by
  intro lis
  induction lis with
  | nil =>
    intro h
    exact Or.inl ⟨(Option.some.inj h).symm, fun i hi => absurd hi (List.not_mem_nil i)⟩
  | cons i rest ih =>
    intro h
    cases hm : readPair m i with
    | none =>
      simp only [removeAux, hm] at h
      exact Option.noConfusion h
    | some o =>
      cases o with
      | none =>
        simp only [removeAux, hm] at h
        rcases ih h with ⟨rfl, hclean⟩ | ⟨j, hj, hv, hw⟩
        · refine Or.inl ⟨rfl, ?_⟩
          intro x hx
          rcases List.mem_cons.1 hx with rfl | hx'
          · exact ⟨by rw [hm]; exact fun hc => Option.noConfusion hc,
              fun a b hab => by rw [hm] at hab; exact Option.noConfusion (Option.some.inj hab)⟩
          · exact hclean x hx'
        · exact Or.inr ⟨j, List.mem_cons_of_mem i hj, hv, hw⟩
      | some q =>
        obtain ⟨bk, bv⟩ := q
        by_cases hbk : bk = k
        · simp only [removeAux, hm] at h
          rw [if_pos hbk] at h
          subst hbk
          exact Or.inr ⟨i, List.mem_cons_self i rest, ⟨bv, hm⟩, (Option.some.inj h).symm⟩
        · simp only [removeAux, hm] at h
          rw [if_neg hbk] at h
          rcases ih h with ⟨rfl, hclean⟩ | ⟨j, hj, hv, hw⟩
          · refine Or.inl ⟨rfl, ?_⟩
            intro x hx
            rcases List.mem_cons.1 hx with rfl | hx'
            · refine ⟨by rw [hm]; exact fun hc => Option.noConfusion hc, ?_⟩
              intro a b hab
              rw [hm] at hab
              have := Option.some.inj (Option.some.inj hab)
              have ha : a = bk := (congrArg Prod.fst this).symm
              rw [ha]
              exact hbk
            · exact hclean x hx'
          · exact Or.inr ⟨j, List.mem_cons_of_mem i hj, hv, hw⟩

theorem insertAux_ok_inv {m : Map K V} {k : K} {tg nx : Nat} :
    ∀ (lis : List Nat) (t : Nat), insertAux m k t lis = Except.ok (tg, nx) →
      (∃ l1 l2, lis = l1 ++ tg :: l2 ∧ nx = m.next ∧ (∃ v, occAt m tg = some (k, v)) ∧
        ∀ i ∈ l1, CleanFor m k i) ∨
      (nx = m.next + 1 ∧ m.next < m.pairs.length ∧ tg = lastTombAux m t lis ∧
        ∀ i ∈ lis, CleanFor m k i) := by
  intro lis
  induction lis with
  | nil =>
    intro t h
    unfold insertAux at h
    by_cases hlt : m.next < m.pairs.length
    · rw [if_pos hlt] at h
      have h' := Except.ok.inj h
      have h1 : t = tg := congrArg Prod.fst h'
      have h2 : m.next + 1 = nx := congrArg Prod.snd h'
      subst h1
      subst h2
      exact Or.inr ⟨rfl, hlt, rfl, fun i hi => absurd hi (List.not_mem_nil i)⟩
    · rw [if_neg hlt] at h
      exact Except.noConfusion h
  | cons i rest ih =>
    intro t h
    cases hm : readPair m i with
    | none =>
      simp only [insertAux, hm] at h
      exact Except.noConfusion h
    | some o =>
      cases o with
      | none =>
        simp only [insertAux, hm] at h
        rcases ih i h with ⟨l1, l2, hsplit, hnx, hocc, hclean⟩ | ⟨hnx, hlen, htg, hclean⟩
        · refine Or.inl ⟨i :: l1, l2, by rw [List.cons_append, hsplit], hnx, hocc, ?_⟩
          intro x hx
          rcases List.mem_cons.1 hx with rfl | hx'
          · exact ⟨by rw [hm]; exact fun hc => Option.noConfusion hc,
              fun a b hab => by rw [hm] at hab; exact Option.noConfusion (Option.some.inj hab)⟩
          · exact hclean x hx'
        · refine Or.inr ⟨hnx, hlen, ?_, ?_⟩
          · simp only [lastTombAux, hm]
            exact htg
          · intro x hx
            rcases List.mem_cons.1 hx with rfl | hx'
            · exact ⟨by rw [hm]; exact fun hc => Option.noConfusion hc,
                fun a b hab => by rw [hm] at hab; exact Option.noConfusion (Option.some.inj hab)⟩
            · exact hclean x hx'
      | some q =>
        obtain ⟨bk, bv⟩ := q
        by_cases hbk : bk = k
        · simp only [insertAux, hm] at h
          rw [if_pos hbk] at h
          have h' := Except.ok.inj h
          have h1 : i = tg := congrArg Prod.fst h'
          have h2 : m.next = nx := congrArg Prod.snd h'
          subst h1
          subst h2
          subst hbk
          exact Or.inl ⟨[], rest, rfl, rfl, ⟨bv, occAt_iff_readPair.2 hm⟩,
            fun x hx => absurd hx (List.not_mem_nil x)⟩
        · simp only [insertAux, hm] at h
          rw [if_neg hbk] at h
          have hcleani : CleanFor m k i := by
            refine ⟨by rw [hm]; exact fun hc => Option.noConfusion hc, ?_⟩
            intro a b hab
            rw [hm] at hab
            have := Option.some.inj (Option.some.inj hab)
            have ha : a = bk := (congrArg Prod.fst this).symm
            rw [ha]
            exact hbk
          rcases ih t h with ⟨l1, l2, hsplit, hnx, hocc, hclean⟩ | ⟨hnx, hlen, htg, hclean⟩
          · refine Or.inl ⟨i :: l1, l2, by rw [List.cons_append, hsplit], hnx, hocc, ?_⟩
            intro x hx
            rcases List.mem_cons.1 hx with rfl | hx'
            · exact hcleani
            · exact hclean x hx'
          · refine Or.inr ⟨hnx, hlen, ?_, ?_⟩
            · simp only [lastTombAux, hm]
              exact htg
            · intro x hx
              rcases List.mem_cons.1 hx with rfl | hx'
              · exact hcleani
              · exact hclean x hx'

theorem insert_ok_inv {m m' : Map K V} {k : K} {v : V}
    (h : insert m k v = Except.ok m') :
    ∃ tg nx, insertAux m k m.next (List.range m.next) = Except.ok (tg, nx) ∧
      tg < m.pairs.length ∧
      m'.pairs = m.pairs.set tg (Slot.init (some (k, v))) ∧ m'.next = nx := by
  cases hs : insertAux m k m.next (List.range m.next) with
  | error e =>
    simp only [insert, hs] at h
    exact Except.noConfusion h
  | ok r =>
    obtain ⟨tg, nx⟩ := r
    simp only [insert, hs] at h
    by_cases hlt : tg < m.pairs.length
    · rw [if_pos hlt] at h
      have h' := Except.ok.inj h
      exact ⟨tg, nx, rfl, hlt, by rw [← h'], by rw [← h']⟩
    · rw [if_neg hlt] at h
      exact Except.noConfusion h

/-- Decomposing `List.range n` around a distinguished element. -/
theorem range_decomp {n tg : Nat} {l1 l2 : List Nat}
    (h : List.range n = l1 ++ tg :: l2) : l1 = List.range tg ∧ tg < n := by
  have hlen : n = l1.length + (l2.length + 1) := by
    have h' := congrArg List.length h
    simpa using h'
  have hl1n : l1.length < n := by omega
  have htg' : (List.range n)[l1.length]? = some tg := by
    rw [h, List.getElem?_append_right (Nat.le_refl l1.length), Nat.sub_self]
    simp
  have htg : tg = l1.length := by
    rw [List.getElem?_range hl1n] at htg'
    exact (Option.some.inj htg').symm
  subst htg
  refine ⟨?_, hl1n⟩
  have ht : (List.range n).take l1.length = l1 := by
    rw [h]
    exact List.take_left l1 _
  conv_lhs => rw [← ht]
  rw [List.take_range, Nat.min_eq_left (Nat.le_of_lt hl1n)]

/-! ### Claim theorems on concrete runs -/

/-- C1: the code contradicts the claim. Starting from the fresh two-slot
container, `insert(1,10); remove(1); insert(2,20)` does write the new pair
into the tombstoned slot 0, but the cursor still advances from 1 to 2,
whereas the claim says the cursor is left unchanged when a tombstone is
reused. -/
theorem insert_advances_cursor_despite_tombstone_reuse :
    insert (Map.new Nat Nat 2) 1 10 =
      Except.ok ⟨[Slot.init (some (1, 10)), Slot.uninit], 1⟩ ∧
    remove (⟨[Slot.init (some (1, 10)), Slot.uninit], 1⟩ : Map Nat Nat) 1 =
      some ⟨[Slot.init none, Slot.uninit], 1⟩ ∧
    tombAt (⟨[Slot.init none, Slot.uninit], 1⟩ : Map Nat Nat) 0 ∧
    insert (⟨[Slot.init none, Slot.uninit], 1⟩ : Map Nat Nat) 2 20 =
      Except.ok ⟨[Slot.init (some (2, 20)), Slot.uninit], 2⟩ ∧
    (⟨[Slot.init (some (2, 20)), Slot.uninit], 2⟩ : Map Nat Nat).next ≠ 1 :=
  ⟨rfl, rfl, rfl, rfl, by decide⟩

/-- C2: the code contradicts the claim. On a capacity-1 container,
`insert(1,10); remove(1)` leaves a tombstone at slot 0 and `len() = 0`, yet
the next `insert(2,20)` still reaches `i == next == N` and the
`debug_assert!(i < N)` fires, although the claim says the assertion is never
triggered while a tombstone is available. -/
theorem insert_asserts_despite_tombstone :
    insert (Map.new Nat Nat 1) 1 10 = Except.ok ⟨[Slot.init (some (1, 10))], 1⟩ ∧
    remove (⟨[Slot.init (some (1, 10))], 1⟩ : Map Nat Nat) 1 =
      some ⟨[Slot.init none], 1⟩ ∧
    tombAt (⟨[Slot.init none], 1⟩ : Map Nat Nat) 0 ∧
    len (⟨[Slot.init none], 1⟩ : Map Nat Nat) = some 0 ∧
    insert (⟨[Slot.init none], 1⟩ : Map Nat Nat) 2 20 = Except.error Err.assertFail :=
  ⟨rfl, rfl, rfl, rfl, rfl⟩

/-- C9: the code contradicts the claim. The operation sequence
`insert(2,1); insert(1,2); clear(); insert(1,3); remove(1); insert(1,4)` on a
fresh capacity-2 container reaches a state whose slots 0 and 1 are both
occupied with key 1 (the stale pre-`clear` pair is resurrected when the final
insert advances the cursor while writing into the tombstone), so key
uniqueness is not an invariant of the reachable states. -/
theorem reachable_state_with_duplicate_keys :
    insert (Map.new Nat Nat 2) 2 1 =
      Except.ok ⟨[Slot.init (some (2, 1)), Slot.uninit], 1⟩ ∧
    insert (⟨[Slot.init (some (2, 1)), Slot.uninit], 1⟩ : Map Nat Nat) 1 2 =
      Except.ok ⟨[Slot.init (some (2, 1)), Slot.init (some (1, 2))], 2⟩ ∧
    clear (⟨[Slot.init (some (2, 1)), Slot.init (some (1, 2))], 2⟩ : Map Nat Nat) =
      ⟨[Slot.init (some (2, 1)), Slot.init (some (1, 2))], 0⟩ ∧
    insert (⟨[Slot.init (some (2, 1)), Slot.init (some (1, 2))], 0⟩ : Map Nat Nat) 1 3 =
      Except.ok ⟨[Slot.init (some (1, 3)), Slot.init (some (1, 2))], 1⟩ ∧
    remove (⟨[Slot.init (some (1, 3)), Slot.init (some (1, 2))], 1⟩ : Map Nat Nat) 1 =
      some ⟨[Slot.init none, Slot.init (some (1, 2))], 1⟩ ∧
    insert (⟨[Slot.init none, Slot.init (some (1, 2))], 1⟩ : Map Nat Nat) 1 4 =
      Except.ok ⟨[Slot.init (some (1, 4)), Slot.init (some (1, 2))], 2⟩ ∧
    keyAt (⟨[Slot.init (some (1, 4)), Slot.init (some (1, 2))], 2⟩ : Map Nat Nat) 0 = some 1 ∧
    keyAt (⟨[Slot.init (some (1, 4)), Slot.init (some (1, 2))], 2⟩ : Map Nat Nat) 1 = some 1 ∧
    ¬ Uniq (⟨[Slot.init (some (1, 4)), Slot.init (some (1, 2))], 2⟩ : Map Nat Nat) := by
  refine ⟨rfl, rfl, rfl, rfl, rfl, rfl, rfl, rfl, ?_⟩
  intro h
  rcases h 0 (by decide) 1 (by decide) (by decide) with h1 | h2
  · exact absurd h1 (by decide)
  · exact h2 rfl

/-- C3: a successful `insert` of a key that matches no occupied slot of
`[0, next)` always advances the cursor by exactly one, even when a tombstone
exists and receives the pair; in that case the slot at the old cursor index
is not written at all (so it enters the scanned prefix with whatever content
— possibly uninitialized — it had). -/
theorem insert_new_key_advances_cursor {m m' : Map K V} {k : K} {v : V}
    (h : insert m k v = Except.ok m')
    (hno : ∀ j, j < m.next → keyAt m j ≠ some k) :
    m'.next = m.next + 1 ∧
    ((∃ j, j < m.next ∧ tombAt m j) → m'.pairs[m.next]? = m.pairs[m.next]?) := by
  obtain ⟨tg, nx, hs, hlt, hpairs, hnext⟩ := insert_ok_inv h
  rcases insertAux_ok_inv _ _ hs with
    ⟨l1, l2, hsplit, hnx, ⟨w, hocc⟩, _⟩ | ⟨hnx, hlen, htg, hclean⟩
  · obtain ⟨hl1, htgn⟩ := range_decomp hsplit
    have : keyAt m tg = some k := by
      unfold keyAt
      rw [hocc]
      rfl
    exact absurd this (hno tg htgn)
  · constructor
    · rw [hnext, hnx]
    · rintro ⟨j, hj, hjt⟩
      have htomb : ∃ i ∈ List.range m.next, readPair m i = some none :=
        ⟨j, List.mem_range.2 hj, tombAt_iff_readPair.1 hjt⟩
      have hfind := lastTombAux_finds_tomb (t := m.next) htomb
      have htgmem : tg ∈ List.range m.next := by
        rw [htg]
        exact hfind.1
      have htgn : tg < m.next := List.mem_range.1 htgmem
      rw [hpairs, List.getElem?_set_ne (Nat.ne_of_lt htgn)]

/-- Witness for C3 at a concrete input: a capacity-2 container holding only
a tombstone at slot 0, cursor 1; inserting the brand-new key 5 succeeds,
advances the cursor to 2, and leaves the (uninitialized) slot at the old
cursor index 1 untouched. -/
theorem insert_new_key_advances_cursor_witness :
    (⟨[Slot.init (some (5, 7)), Slot.uninit], 2⟩ : Map Nat Nat).next =
      (⟨[Slot.init none, Slot.uninit], 1⟩ : Map Nat Nat).next + 1 ∧
    ((∃ j, j < (⟨[Slot.init none, Slot.uninit], 1⟩ : Map Nat Nat).next ∧
        tombAt (⟨[Slot.init none, Slot.uninit], 1⟩ : Map Nat Nat) j) →
      (⟨[Slot.init (some (5, 7)), Slot.uninit], 2⟩ : Map Nat Nat).pairs[
        (⟨[Slot.init none, Slot.uninit], 1⟩ : Map Nat Nat).next]? =
      (⟨[Slot.init none, Slot.uninit], 1⟩ : Map Nat Nat).pairs[
        (⟨[Slot.init none, Slot.uninit], 1⟩ : Map Nat Nat).next]?) :=
  insert_new_key_advances_cursor (by rfl) (by decide)

/-- C5: a successful `insert(k, v2)` while `k` already occupies a slot of
`[0, next)` keeps the cursor, keeps `len()`, rewrites exactly that slot in
place with the new value (no relocation, even if an empty slot occurs
earlier in the scan), and `get(k)` afterwards returns `v2`. -/
theorem insert_existing_key_in_place {m m' : Map K V} {k : K} {v2 : V}
    (hk : ∃ j, j < m.next ∧ keyAt m j = some k)
    (h : insert m k v2 = Except.ok m') :
    m'.next = m.next ∧ len m' = len m ∧
    (∃ j w, j < m.next ∧ occAt m j = some (k, w) ∧
      m'.pairs = m.pairs.set j (Slot.init (some (k, v2)))) ∧
    get m' k = some (some v2) := by
  obtain ⟨tg, nx, hs, hlt, hpairs, hnext⟩ := insert_ok_inv h
  rcases insertAux_ok_inv _ _ hs with
    ⟨l1, l2, hsplit, hnx, ⟨w, hocc⟩, hclean1⟩ | ⟨hnx, hlen, htg, hclean⟩
  · obtain ⟨hl1, htgn⟩ := range_decomp hsplit
    have hreadtg : readPair m tg = some (some (k, w)) := occAt_iff_readPair.1 hocc
    have hreadtg' : readPair m' tg = some (some (k, v2)) := by
      rw [readPair_of_set_self hpairs hlt]
      rfl
    have hnext' : m'.next = m.next := by rw [hnext, hnx]
    refine ⟨hnext', ?_, ⟨tg, w, htgn, hocc, hpairs⟩, ?_⟩
    · unfold len
      rw [hnext']
      refine lenAux_congr ?_
      intro i _
      by_cases hi : i = tg
      · subst hi
        rw [hreadtg, hreadtg']
        rfl
      · rw [readPair_of_set_ne hpairs hi]
    · unfold get
      rw [hnext', hsplit]
      refine getAux_found l1 tg l2 ?_ hreadtg'
      intro i hi
      have hine : i ≠ tg := by
        rw [hl1] at hi
        exact Nat.ne_of_lt (List.mem_range.1 hi)
      have hci := hclean1 i hi
      exact ⟨by rw [readPair_of_set_ne hpairs hine]; exact hci.1,
        fun a b hab => hci.2 a b (by rw [← readPair_of_set_ne hpairs hine]; exact hab)⟩
  · exfalso
    obtain ⟨j, hj, hkey⟩ := hk
    have hocc : ∃ w, occAt m j = some (k, w) := by
      unfold keyAt at hkey
      cases ho : occAt m j with
      | none => rw [ho] at hkey; exact Option.noConfusion hkey
      | some q =>
        rw [ho] at hkey
        obtain ⟨a, b⟩ := q
        have ha : a = k := Option.some.inj hkey
        exact ⟨b, by rw [ha]⟩
    obtain ⟨w, hw⟩ := hocc
    have hc := hclean j (List.mem_range.2 hj)
    exact hc.2 k w (occAt_iff_readPair.1 hw) rfl

/-- Witness for C5 at a concrete input: key 1 occupies slot 0 with value 5;
inserting `(1, 7)` keeps cursor and length, rewrites slot 0 in place, and
`get 1` then returns 7. -/
theorem insert_existing_key_in_place_witness :
    (⟨[Slot.init (some (1, 7))], 1⟩ : Map Nat Nat).next =
      (⟨[Slot.init (some (1, 5))], 1⟩ : Map Nat Nat).next ∧
    len (⟨[Slot.init (some (1, 7))], 1⟩ : Map Nat Nat) =
      len (⟨[Slot.init (some (1, 5))], 1⟩ : Map Nat Nat) ∧
    (∃ j w, j < (⟨[Slot.init (some (1, 5))], 1⟩ : Map Nat Nat).next ∧
      occAt (⟨[Slot.init (some (1, 5))], 1⟩ : Map Nat Nat) j = some (1, w) ∧
      (⟨[Slot.init (some (1, 7))], 1⟩ : Map Nat Nat).pairs =
        (⟨[Slot.init (some (1, 5))], 1⟩ : Map Nat Nat).pairs.set j
          (Slot.init (some (1, 7)))) ∧
    get (⟨[Slot.init (some (1, 7))], 1⟩ : Map Nat Nat) 1 = some (some 7) :=
  insert_existing_key_in_place ⟨0, by decide, by rfl⟩ (by rfl)

/-- Invariant of insert-only histories: the cursor is within bounds and the
whole scanned prefix consists of occupied slots (no tombstone, nothing
uninitialized). -/
def InsOnly (m : Map K V) : Prop :=
  m.next ≤ m.pairs.length ∧ ∀ i, i < m.next → ∃ q, readPair m i = some (some q)

theorem insert_preserves_insOnly {m m' : Map K V} {k : K} {v : V}
    (hP : InsOnly m) (h : insert m k v = Except.ok m') :
    InsOnly m' ∧ m'.pairs.length = m.pairs.length := by
  obtain ⟨hle, hocc⟩ := hP
  obtain ⟨tg, nx, hs, hlt, hpairs, hnext⟩ := insert_ok_inv h
  have hlen' : m'.pairs.length = m.pairs.length := by
    rw [hpairs, List.length_set]
  rcases insertAux_ok_inv _ _ hs with
    ⟨l1, l2, hsplit, hnx, _, _⟩ | ⟨hnx, hltn, htg, _⟩
  · obtain ⟨_, htgn⟩ := range_decomp hsplit
    refine ⟨⟨?_, ?_⟩, hlen'⟩
    · rw [hnext, hnx, hlen']
      exact hle
    · intro i hi
      rw [hnext, hnx] at hi
      by_cases hitg : i = tg
      · subst hitg
        exact ⟨(k, v), by rw [readPair_of_set_self hpairs hlt]; rfl⟩
      · obtain ⟨q, hq⟩ := hocc i hi
        exact ⟨q, by rw [readPair_of_set_ne hpairs hitg]; exact hq⟩
  · have hnotomb : ∀ i ∈ List.range m.next, readPair m i ≠ some none := by
      intro i hi
      obtain ⟨q, hq⟩ := hocc i (List.mem_range.1 hi)
      rw [hq]
      exact fun hc => Option.noConfusion (Option.some.inj hc)
    have htg' : tg = m.next := by
      rw [htg]
      exact lastTombAux_no_tomb hnotomb
    refine ⟨⟨?_, ?_⟩, hlen'⟩
    · rw [hnext, hnx, hlen']
      exact hltn
    · intro i hi
      rw [hnext, hnx] at hi
      by_cases hitg : i = tg
      · subst hitg
        exact ⟨(k, v), by rw [readPair_of_set_self hpairs hlt]; rfl⟩
      · have hi' : i < m.next := by
          rcases Nat.lt_succ_iff_lt_or_eq.1 hi with h' | h'
          · exact h'
          · exact absurd (h'.trans htg'.symm) hitg
        obtain ⟨q, hq⟩ := hocc i hi'
        exact ⟨q, by rw [readPair_of_set_ne hpairs hitg]; exact hq⟩

theorem applyInserts_preserves_insOnly :
    ∀ {l : List (K × V)} {m m' : Map K V}, InsOnly m →
      applyInserts m l = Except.ok m' →
      InsOnly m' ∧ m'.pairs.length = m.pairs.length := by
  intro l
  induction l with
  | nil =>
    intro m m' hP h
    have : m = m' := Except.ok.inj h
    rw [← this]
    exact ⟨hP, rfl⟩
  | cons q rest ih =>
    intro m m' hP h
    obtain ⟨k, v⟩ := q
    cases hstep : insert m k v with
    | error e =>
      simp only [applyInserts, hstep] at h
      exact Except.noConfusion h
    | ok m1 =>
      simp only [applyInserts, hstep] at h
      obtain ⟨hP1, hlen1⟩ := insert_preserves_insOnly hP hstep
      obtain ⟨hP', hlen'⟩ := ih hP1 h
      exact ⟨hP', hlen'.trans hlen1⟩

/-- C4: along any insert-only history started from a freshly constructed
capacity-`N` container, every successfully reached state has a defined
`len()` which is at most `capacity()`, and the capacity is still `N`. Every
intermediate state of the history is itself the result of the prefix list of
inserts, so this covers every step. -/
theorem len_le_capacity_after_inserts {N : Nat} {l : List (K × V)} {m' : Map K V}
    (h : applyInserts (Map.new K V N) l = Except.ok m') :
    ∃ n, len m' = some n ∧ n ≤ capacity m' ∧ capacity m' = N := by
  have hP0 : InsOnly (Map.new K V N) := by
    refine ⟨Nat.zero_le _, ?_⟩
    intro i hi
    exact absurd hi (Nat.not_lt_zero i)
  obtain ⟨⟨hle, hocc⟩, hlen⟩ := applyInserts_preserves_insOnly hP0 h
  refine ⟨m'.next, ?_, ?_, ?_⟩
  · unfold len
    rw [lenAux_all_occupied (fun i hi => hocc i (List.mem_range.1 hi))]
    rw [List.length_range]
  · exact hle
  · unfold capacity
    rw [hlen]
    unfold Map.new
    exact List.length_replicate N Slot.uninit

/-- Witness for C4: three inserts (the third overwriting key 1) into a fresh
capacity-2 container; the resulting length 2 is within the capacity 2. -/
theorem len_le_capacity_after_inserts_witness :
    ∃ n, len (⟨[Slot.init (some (1, 30)), Slot.init (some (2, 20))], 2⟩ : Map Nat Nat) =
        some n ∧
      n ≤ capacity (⟨[Slot.init (some (1, 30)), Slot.init (some (2, 20))], 2⟩ : Map Nat Nat) ∧
      capacity (⟨[Slot.init (some (1, 30)), Slot.init (some (2, 20))], 2⟩ : Map Nat Nat) = 2 :=
  len_le_capacity_after_inserts
    (l := [(1, 10), (2, 20), (1, 30)]) (by rfl)

theorem readPair_ne_none_of_inited {m : Map K V} (hI : Inited m) {i : Nat}
    (hi : i < m.next) : readPair m i ≠ none := by
  obtain ⟨h1, h2⟩ := hI i hi
  unfold readPair
  cases hp : m.pairs[i]? with
  | none => exact absurd hp h1
  | some s =>
    cases s with
    | uninit => exact absurd hp h2
    | init o => exact fun hc => Option.noConfusion hc

/-- C6 counterexample: in the reachable duplicate-key state produced by
`insert(2,1); insert(1,2); clear(); insert(1,3); remove(1); insert(1,4)` on a
fresh capacity-2 container, a further `remove(1)` tombstones only slot 0,
after which `contains_key(1)` is still true and `get(1)` still finds the
stale value 2 — contradicting the claim for every container state. -/
theorem remove_leaves_key_present_in_reachable_state :
    insert (⟨[Slot.uninit, Slot.uninit], 0⟩ : Map Nat Nat) 2 1 =
      Except.ok ⟨[Slot.init (some (2, 1)), Slot.uninit], 1⟩ ∧
    insert (⟨[Slot.init (some (2, 1)), Slot.uninit], 1⟩ : Map Nat Nat) 1 2 =
      Except.ok ⟨[Slot.init (some (2, 1)), Slot.init (some (1, 2))], 2⟩ ∧
    clear (⟨[Slot.init (some (2, 1)), Slot.init (some (1, 2))], 2⟩ : Map Nat Nat) =
      ⟨[Slot.init (some (2, 1)), Slot.init (some (1, 2))], 0⟩ ∧
    insert (⟨[Slot.init (some (2, 1)), Slot.init (some (1, 2))], 0⟩ : Map Nat Nat) 1 3 =
      Except.ok ⟨[Slot.init (some (1, 3)), Slot.init (some (1, 2))], 1⟩ ∧
    remove (⟨[Slot.init (some (1, 3)), Slot.init (some (1, 2))], 1⟩ : Map Nat Nat) 1 =
      some ⟨[Slot.init none, Slot.init (some (1, 2))], 1⟩ ∧
    insert (⟨[Slot.init none, Slot.init (some (1, 2))], 1⟩ : Map Nat Nat) 1 4 =
      Except.ok ⟨[Slot.init (some (1, 4)), Slot.init (some (1, 2))], 2⟩ ∧
    remove (⟨[Slot.init (some (1, 4)), Slot.init (some (1, 2))], 2⟩ : Map Nat Nat) 1 =
      some ⟨[Slot.init none, Slot.init (some (1, 2))], 2⟩ ∧
    contains_key (⟨[Slot.init none, Slot.init (some (1, 2))], 2⟩ : Map Nat Nat) 1 =
      some true ∧
    get (⟨[Slot.init none, Slot.init (some (1, 2))], 2⟩ : Map Nat Nat) 1 =
      some (some 2) :=
  ⟨rfl, rfl, rfl, rfl, rfl, rfl, rfl, rfl, rfl⟩

/-- C6 (amended): when the scanned prefix is fully initialized and holds no
duplicate occupied keys — the integrity invariants the data structure is
meant to maintain — a successful `remove(k)` leaves the cursor unchanged,
makes `contains_key(k)` false and `get(k)` empty, and either tombstones
exactly one occupied slot holding `k` or, when `k` is absent, returns the
container unchanged. -/
theorem remove_spec_under_integrity {m m' : Map K V} {k : K}
    (hI : Inited m) (hU : Uniq m) (h : remove m k = some m') :
    m'.next = m.next ∧ contains_key m' k = some false ∧ get m' k = some none ∧
    ((∃ j w, j < m.next ∧ occAt m j = some (k, w) ∧ m' = writePair m j none) ∨
      ((∀ j, j < m.next → keyAt m j ≠ some k) ∧ m' = m)) := by
  have h' : removeAux m k (List.range m.next) = some m' := h
  rcases removeAux_ok_inv h' with ⟨hm, hclean⟩ | ⟨j, hjmem, ⟨w, hv⟩, hw⟩
  · have hnok : ∀ j, j < m.next → keyAt m j ≠ some k := by
      intro j hj hkey
      have hc := hclean j (List.mem_range.2 hj)
      unfold keyAt at hkey
      cases ho : occAt m j with
      | none => rw [ho] at hkey; exact Option.noConfusion hkey
      | some q =>
        obtain ⟨a, b⟩ := q
        rw [ho] at hkey
        have ha : a = k := Option.some.inj hkey
        exact hc.2 a b (occAt_iff_readPair.1 ho) ha
    rw [hm]
    exact ⟨rfl, containsAux_clean hclean, getAux_clean hclean, Or.inr ⟨hnok, rfl⟩⟩
  · have hj : j < m.next := List.mem_range.1 hjmem
    have hjlen : j < m.pairs.length := readPair_lt_length hv
    have hclean' : ∀ i ∈ List.range (writePair m j none).next, CleanFor (writePair m j none) k i := by
      intro i hi
      have hi' : i < m.next := List.mem_range.1 hi
      by_cases hij : i = j
      · subst hij
        refine ⟨?_, ?_⟩
        · rw [readPair_writePair_self hjlen]
          exact fun hc => Option.noConfusion hc
        · intro a b hab
          rw [readPair_writePair_self hjlen] at hab
          exact absurd (Option.some.inj hab) (fun hx => Option.noConfusion hx)
      · refine ⟨?_, ?_⟩
        · rw [readPair_writePair_ne (Ne.symm hij)]
          exact readPair_ne_none_of_inited hI hi'
        · intro a b hab
          rw [readPair_writePair_ne (Ne.symm hij)] at hab
          intro hak
          have hkeyi : keyAt m i = some k := by
            unfold keyAt
            rw [occAt_iff_readPair.2 hab, hak]
            rfl
          have hkeyj : keyAt m j = some k := by
            unfold keyAt
            rw [occAt_iff_readPair.2 hv]
            rfl
          rcases hU i hi' j hj hij with hnone | hne
          · rw [hkeyi] at hnone
            exact Option.noConfusion hnone
          · rw [hkeyi, hkeyj] at hne
            exact hne rfl
    subst hw
    exact ⟨rfl, containsAux_clean hclean', getAux_clean hclean',
      Or.inl ⟨j, w, hj, occAt_iff_readPair.2 hv, rfl⟩⟩

/-- Witness for C6 (amended) at a concrete input: removing the only key of a
well-formed one-slot container. -/
theorem remove_spec_under_integrity_witness :
    (⟨[Slot.init none], 1⟩ : Map Nat Nat).next =
      (⟨[Slot.init (some (1, 5))], 1⟩ : Map Nat Nat).next ∧
    contains_key (⟨[Slot.init none], 1⟩ : Map Nat Nat) 1 = some false ∧
    get (⟨[Slot.init none], 1⟩ : Map Nat Nat) 1 = some none ∧
    ((∃ j w, j < (⟨[Slot.init (some (1, 5))], 1⟩ : Map Nat Nat).next ∧
        occAt (⟨[Slot.init (some (1, 5))], 1⟩ : Map Nat Nat) j = some (1, w) ∧
        (⟨[Slot.init none], 1⟩ : Map Nat Nat) =
          writePair (⟨[Slot.init (some (1, 5))], 1⟩ : Map Nat Nat) j none) ∨
      ((∀ j, j < (⟨[Slot.init (some (1, 5))], 1⟩ : Map Nat Nat).next →
          keyAt (⟨[Slot.init (some (1, 5))], 1⟩ : Map Nat Nat) j ≠ some 1) ∧
        (⟨[Slot.init none], 1⟩ : Map Nat Nat) =
          (⟨[Slot.init (some (1, 5))], 1⟩ : Map Nat Nat))) :=
  remove_spec_under_integrity (by decide) (by decide) (by rfl)

theorem retainAux_ok_char {p : K → V → Bool} :
    ∀ (c i : Nat) (m m' : Map K V), i + c = m.next →
      retainAux p m (List.range' i c) = some m' →
      m'.next = m.next ∧
      (∀ j, m'.pairs[j]? =
        if i ≤ j ∧ j < m.next then retainSlot p (m.pairs[j]?) else m.pairs[j]?) ∧
      (∀ j, i ≤ j → j < m.next → readPair m j ≠ none) := by
  intro c
  induction c with
  | zero =>
    intro i m m' hc h
    have hm : m = m' := Option.some.inj h
    subst hm
    refine ⟨rfl, ?_, ?_⟩
    · intro j
      rw [if_neg (by omega)]
    · intro j hij hjn
      omega
  | succ c ih =>
    intro i m m' hc h
    rw [List.range'_succ i c 1] at h
    cases hm : readPair m i with
    | none =>
      simp only [retainAux, hm] at h
      exact Option.noConfusion h
    | some o =>
      cases o with
      | none =>
        simp only [retainAux, hm] at h
        obtain ⟨hn, hch, hrd⟩ := ih (i + 1) m m' (by omega) h
        refine ⟨hn, ?_, ?_⟩
        · intro j
          by_cases hji : j = i
          · subst hji
            rw [hch j, if_neg (by omega), if_pos (by omega)]
            rw [pairs_of_readPair hm]
            rfl
          · by_cases hij : i ≤ j ∧ j < m.next
            · rw [hch j, if_pos (by omega), if_pos hij]
            · rw [hch j, if_neg (by omega), if_neg hij]
        · intro j hij hjn
          by_cases hji : j = i
          · subst hji
            rw [hm]
            exact fun hc' => Option.noConfusion hc'
          · exact hrd j (by omega) hjn
      | some q =>
        obtain ⟨bk, bv⟩ := q
        by_cases hp : p bk bv
        · simp only [retainAux, hm] at h
          rw [if_pos hp] at h
          obtain ⟨hn, hch, hrd⟩ := ih (i + 1) m m' (by omega) h
          refine ⟨hn, ?_, ?_⟩
          · intro j
            by_cases hji : j = i
            · subst hji
              rw [hch j, if_neg (by omega), if_pos (by omega)]
              rw [pairs_of_readPair hm]
              simp [retainSlot, hp]
            · by_cases hij : i ≤ j ∧ j < m.next
              · rw [hch j, if_pos (by omega), if_pos hij]
              · rw [hch j, if_neg (by omega), if_neg hij]
          · intro j hij hjn
            by_cases hji : j = i
            · subst hji
              rw [hm]
              exact fun hc' => Option.noConfusion hc'
            · exact hrd j (by omega) hjn
        · simp only [retainAux, hm] at h
          rw [if_neg hp] at h
          have hilen : i < m.pairs.length := readPair_lt_length hm
          have hc2 : (i + 1) + c = (writePair m i none).next := by
            rw [writePair_next]
            omega
          obtain ⟨hn, hch, hrd⟩ := ih (i + 1) (writePair m i none) m' hc2 h
          have hn' : m'.next = m.next := hn.trans writePair_next
          refine ⟨hn', ?_, ?_⟩
          · intro j
            have hchj := hch j
            rw [writePair_next] at hchj
            by_cases hji : j = i
            · subst hji
              rw [if_neg (by omega)] at hchj
              have hwp : (writePair m j none).pairs[j]? = some (Slot.init none) := by
                unfold writePair
                exact List.getElem?_set_eq_of_lt _ hilen
              rw [hchj, hwp, if_pos (by omega)]
              rw [pairs_of_readPair hm]
              simp [retainSlot, hp]
            · have hwp : (writePair m i none).pairs[j]? = m.pairs[j]? := by
                unfold writePair
                exact List.getElem?_set_ne (fun he => hji he.symm)
              rw [hwp] at hchj
              by_cases hij : i ≤ j ∧ j < m.next
              · rw [if_pos (by omega)] at hchj
                rw [hchj, if_pos hij]
              · rw [if_neg (by omega)] at hchj
                rw [hchj, if_neg hij]
          · intro j hij hjn
            by_cases hji : j = i
            · subst hji
              rw [hm]
              exact fun hc' => Option.noConfusion hc'
            · have hrdj := hrd j (by omega) (by rw [writePair_next]; omega)
              rw [readPair_writePair_ne (fun he => hji he.symm)] at hrdj
              exact hrdj

/-- C7: a successful `retain(p)` keeps the cursor, tombstones exactly the
occupied slots of `[0, next)` whose pair fails `p`, leaves every other slot
(including everything at or beyond the cursor) byte-for-byte unchanged — no
reordering or compaction — and each slot surviving the predicate keeps its
pair at its index; each retained key is afterwards retrievable via `get`,
which returns the unchanged value of its first surviving slot. -/
theorem retain_spec {m m' : Map K V} {p : K → V → Bool}
    (h : retain m p = some m') :
    m'.next = m.next ∧
    (∀ j, m'.pairs[j]? =
      if j < m.next then retainSlot p (m.pairs[j]?) else m.pairs[j]?) ∧
    (∀ j a b, j < m.next → occAt m j = some (a, b) → p a b = true →
      occAt m' j = some (a, b) ∧
      ∃ j0 w, j0 < m.next ∧ occAt m j0 = some (a, w) ∧ occAt m' j0 = some (a, w) ∧
        p a w = true ∧ get m' a = some (some w)) := by
  have h' : retainAux p m (List.range' 0 m.next) = some m' := by
    have h2 : retainAux p m (List.range m.next) = some m' := h
    rw [List.range_eq_range' m.next] at h2
    exact h2
  obtain ⟨hn, hch, hrd⟩ := retainAux_ok_char m.next 0 m m' (by omega) h'
  have hch0 : ∀ j, m'.pairs[j]? =
      if j < m.next then retainSlot p (m.pairs[j]?) else m.pairs[j]? := by
    intro j
    rw [hch j]
    by_cases hj : j < m.next
    · rw [if_pos ⟨Nat.zero_le j, hj⟩, if_pos hj]
    · rw [if_neg (fun hcj => hj hcj.2), if_neg hj]
  refine ⟨hn, hch0, ?_⟩
  intro j a b hj hocc hp
  have hmj : m.pairs[j]? = some (Slot.init (some (a, b))) :=
    pairs_of_readPair (occAt_iff_readPair.1 hocc)
  have hoccj' : occAt m' j = some (a, b) := by
    unfold occAt
    rw [hch0 j, if_pos hj, hmj]
    simp [retainSlot, hp]
  refine ⟨hoccj', ?_⟩
  have hreads' : ∀ i ∈ List.range m'.next, readPair m' i ≠ none := by
    intro i hi
    have hi' : i < m.next := by
      rw [← hn]
      exact List.mem_range.1 hi
    have hri : readPair m i ≠ none := hrd i (Nat.zero_le i) hi'
    cases hro : readPair m i with
    | none => exact absurd hro hri
    | some o =>
      have hpi : m.pairs[i]? = some (Slot.init o) := pairs_of_readPair hro
      unfold readPair
      rw [hch0 i, if_pos hi', hpi]
      cases o with
      | none => simp [retainSlot, assumeInitRef]
      | some q =>
        obtain ⟨qa, qb⟩ := q
        by_cases hq : p qa qb <;> simp [retainSlot, assumeInitRef, hq]
  have hex : ∃ j2 ∈ List.range m'.next, ∃ w, occAt m' j2 = some (a, w) :=
    ⟨j, List.mem_range.2 (by rw [hn]; exact hj), b, hoccj'⟩
  obtain ⟨j0, w, hj0mem, hocc0', hget⟩ := getAux_first hreads' hex
  have hj0 : j0 < m.next := by
    rw [← hn]
    exact List.mem_range.1 hj0mem
  have hm'j0 : m'.pairs[j0]? = some (Slot.init (some (a, w))) :=
    pairs_of_readPair (occAt_iff_readPair.1 hocc0')
  have hstep := hch0 j0
  rw [if_pos hj0, hm'j0] at hstep
  have hmain : occAt m j0 = some (a, w) ∧ p a w = true := by
    cases hma : m.pairs[j0]? with
    | none =>
      rw [hma] at hstep
      simp [retainSlot] at hstep
    | some s =>
      cases s with
      | uninit =>
        rw [hma] at hstep
        simp [retainSlot] at hstep
      | init o =>
        cases o with
        | none =>
          rw [hma] at hstep
          simp [retainSlot] at hstep
        | some q =>
          obtain ⟨qa, qb⟩ := q
          rw [hma] at hstep
          by_cases hq : p qa qb
          · simp only [retainSlot, hq, if_pos] at hstep
            have hpair : (a, w) = (qa, qb) := by
              have := Option.some.inj hstep
              exact Slot.init.inj this |> Option.some.inj
            have ha : qa = a := (congrArg Prod.fst hpair).symm
            have hw : qb = w := (congrArg Prod.snd hpair).symm
            subst ha
            subst hw
            exact ⟨by unfold occAt; rw [hma], hq⟩
          · simp [retainSlot, hq] at hstep
  exact ⟨j0, w, hj0, hmain.1, hocc0', hmain.2, hget⟩

/-- Witness for C7 at a concrete input: retaining the keys equal to 1 in a
two-slot container keeps slot 0 untouched and tombstones slot 1, with key 1
still retrievable with its unchanged value 5. -/
theorem retain_spec_witness :
    occAt (⟨[Slot.init (some (1, 5)), Slot.init none], 2⟩ : Map Nat Nat) 0 =
      some (1, 5) ∧
    ∃ j0 w, j0 < (⟨[Slot.init (some (1, 5)), Slot.init (some (2, 6))], 2⟩ : Map Nat Nat).next ∧
      occAt (⟨[Slot.init (some (1, 5)), Slot.init (some (2, 6))], 2⟩ : Map Nat Nat) j0 =
        some (1, w) ∧
      occAt (⟨[Slot.init (some (1, 5)), Slot.init none], 2⟩ : Map Nat Nat) j0 =
        some (1, w) ∧
      (fun a (_ : Nat) => a == 1) 1 w = true ∧
      get (⟨[Slot.init (some (1, 5)), Slot.init none], 2⟩ : Map Nat Nat) 1 =
        some (some w) :=
  (retain_spec (m := ⟨[Slot.init (some (1, 5)), Slot.init (some (2, 6))], 2⟩)
    (p := fun a (_ : Nat) => a == 1) (by rfl)).2.2 0 1 5 (by decide) (by rfl) (by rfl)

/-- C8: `clear()` only resets the cursor to 0: afterwards `len()` is 0 and
`is_empty()` is true, while the capacity and the slot array are untouched. -/
theorem clear_resets_cursor_only (m : Map K V) :
    (clear m).next = 0 ∧ len (clear m) = some 0 ∧ is_empty (clear m) = some true ∧
    capacity (clear m) = capacity m ∧ (clear m).pairs = m.pairs :=
  ⟨rfl, rfl, rfl, rfl, rfl⟩

end Micromap
